import Mathlib

/-!
Verification of the Golden Cross backtest and optimization engine.

Shallow embedding of the core logic of `replay/strategies/goldencross.py`,
`replay/pages/goldencross.py` and `desk/stats/metrics.py` of the `rooms`
repository, together with theorems checking the natural-language
specification against it.

Modelling conventions:
* Python floats are modelled as rationals (`ℚ`); a float `NaN` is modelled
  as `none` in `Option ℚ`.
* pandas `Series` are modelled as Lean lists aligned by position.
* Python strings are modelled as `List Char`; `str.split(sep)` for a
  one-character separator is modelled by `splitOnChar`.
* Code that raises is modelled in the `Except String` monad.
* The external portfolio-simulation library (vectorbt) is an opaque
  collaborator: it is modelled as an abstract simulation function
  (a parameter of type `Sim`), except for `Trades.win_rate`, whose
  division-by-trade-count semantics the repository code explicitly
  compensates for and which is therefore modelled concretely.
-/
namespace Rooms

/-! ## Characters and digit strings -/
/-- The decimal digit character for `d` (`d < 10`); used to model Python's
rendering of integers. -/
def digitChar : ℕ → Char
  | 0 => '0' | 1 => '1' | 2 => '2' | 3 => '3' | 4 => '4'
  | 5 => '5' | 6 => '6' | 7 => '7' | 8 => '8' | 9 => '9'
  | _ => '*'

/-- Numeric value of a decimal digit character. -/
def charDigitVal : Char → ℕ
  | '0' => 0 | '1' => 1 | '2' => 2 | '3' => 3 | '4' => 4
  | '5' => 5 | '6' => 6 | '7' => 7 | '8' => 8 | '9' => 9
  | _ => 10

/-- Is `c` a decimal digit character? -/
def isDigitCh (c : Char) : Bool := 48 ≤ c.toNat && c.toNat ≤ 57

/-- Little-endian decimal digits of `n`, with `fuel` bounding the recursion
depth (`n ≤ fuel` suffices). -/
def natDigitsAux : ℕ → ℕ → List ℕ
  | _, 0 => []
  | 0, _ + 1 => []
  | fuel + 1, n + 1 => (n + 1) % 10 :: natDigitsAux fuel ((n + 1) / 10)

/-- Little-endian decimal digits of `n` (empty for `0`). -/
def natToDigitsRev (n : ℕ) : List ℕ := natDigitsAux n n

/-- Value of a little-endian digit list. -/
def ofDigitsRev (l : List ℕ) : ℕ := l.foldr (fun d acc => d + 10 * acc) 0

/-- Decimal rendering of a natural number, as Python's `str` produces. -/
def natRepr (n : ℕ) : List Char :=
  if n = 0 then ['0'] else (natToDigitsRev n).reverse.map digitChar

/-- Parse a decimal natural number, as Python's `int` accepts for a
digits-only string. -/
def natParse (l : List Char) : Option ℕ :=
  if l ≠ [] ∧ l.all isDigitCh then
    some (ofDigitsRev ((l.map charDigitVal).reverse))
  else none

/-- Decimal rendering of an integer, as Python's `str` produces. -/
def intRepr (i : ℤ) : List Char :=
  if i < 0 then '-' :: natRepr i.natAbs else natRepr i.natAbs

/-- Parse a decimal integer with an optional leading minus sign, as
Python's `int` accepts. -/
def intParse (l : List Char) : Option ℤ :=
  if l.head? = some '-' then (natParse l.tail).map (fun n : ℕ => -(n : ℤ))
  else (natParse l).map (fun n : ℕ => (n : ℤ))

/-- Exact rendering of a rational as numerator and denominator. The source
exports Python floats via `repr`, which is injective on floats (its output
parses back to exactly the same float); the model renders the rational
value injectively for the same reason. -/
def ratRepr (q : ℚ) : List Char := intRepr q.num ++ '/' :: natRepr q.den

/-! ## Python-style string splitting and joining

`splitOnChar sep l` models Python's `str.split(sep)` for a one-character
separator `sep`, and `joinChar` the corresponding join. -/
def splitOnChar (sep : Char) : List Char → List (List Char)
  | [] => [[]]
  | c :: cs =>
    match splitOnChar sep cs with
    | [] => [[]]
    | h :: t => if c = sep then [] :: h :: t else (c :: h) :: t

def joinChar (sep : Char) : List (List Char) → List Char
  | [] => []
  | [p] => p
  | p :: q :: rest => p ++ sep :: joinChar sep (q :: rest)

/-- Parse an exact rational rendering (numerator, `'/'`, denominator). -/
def ratParse (l : List Char) : Option ℚ :=
  match splitOnChar '/' l with
  | [a, b] => do
    let n ← intParse a
    let d ← natParse b
    pure ((n : ℚ) / (d : ℚ))
  | _ => none

/-- Rendering of one CSV cell holding a possibly-NaN float: pandas'
`to_csv` writes `NaN` as the empty cell and a float via `repr`. -/
def cellRepr : Option ℚ → List Char
  | none => []
  | some q => ratRepr q

/-- Parse one CSV cell: an empty cell is `NaN`, anything else a float. -/
def cellParse (l : List Char) : Option (Option ℚ) :=
  if l = [] then some none else (ratParse l).map some

/-! ## Parameter-combination labels

`optimize_golden_cross` records each surviving pair as the label
`f"Fast={fast_w}, Slow={slow_w}"` and later recovers the windows by
`int(label.split(",")[0].split("=")[1])` and `int(label.split("=")[2])`. -/
def fastEqChars : List Char := ['F', 'a', 's', 't', '=']

def commaSlowEqChars : List Char := [',', ' ', 'S', 'l', 'o', 'w', '=']

/-- The label `f"Fast={f}, Slow={s}"`. -/
def mkLabel (f s : ℤ) : List Char :=
  fastEqChars ++ intRepr f ++ commaSlowEqChars ++ intRepr s

/-- `int(label.split(",")[0].split("=")[1])`. -/
def parseLabelFast (label : List Char) : Option ℤ :=
  intParse ((splitOnChar '=' ((splitOnChar ',' label).headD [])).getD 1 [])

/-- `int(label.split("=")[2])`. -/
def parseLabelSlow (label : List Char) : Option ℤ :=
  intParse ((splitOnChar '=' label).getD 2 [])

/-! ## Signal generation (`GoldenCrossStrategy.generate_signals`)

pandas semantics embedded:
* `fast_ma > slow_ma` compares elementwise and yields `False` whenever
  either operand is `NaN` (`none`);
* `.shift(1, fill_value=False)` moves every element one position later,
  filling position 0 with `False` and dropping the last element. -/
/-- Elementwise `fast > slow` with `NaN` comparisons yielding `False`. -/
def cmpGtOpt (x y : Option ℚ) : Bool :=
  match x, y with
  | some a, some b => decide (b < a)
  | _, _ => false

/-- Elementwise `fast < slow` with `NaN` comparisons yielding `False`. -/
def cmpLtOpt (x y : Option ℚ) : Bool :=
  match x, y with
  | some a, some b => decide (a < b)
  | _, _ => false

/-- pandas `Series.shift(1, fill_value=fill)` on a boolean series. -/
def shiftFill (fill : Bool) (l : List Bool) : List Bool :=
  (fill :: l).take l.length

/-- `GoldenCrossStrategy.generate_signals`: entries are bars where
`fast_ma > slow_ma` holds and did not hold on the shifted (previous)
bar; exits the same with `<`. -/
def generateSignals (fast_ma slow_ma : List (Option ℚ)) :
    List Bool × List Bool :=
  let fast_above := List.zipWith cmpGtOpt fast_ma slow_ma
  let entries :=
    List.zipWith (fun a b => a && !b) fast_above (shiftFill false fast_above)
  let fast_below := List.zipWith cmpLtOpt fast_ma slow_ma
  let exits :=
    List.zipWith (fun a b => a && !b) fast_below (shiftFill false fast_below)
  (entries, exits)

/-- Index-wise form of the current-bar comparison `fast[i] > slow[i]`,
false when out of range or when either value is undefined. -/
def gtAt (fast slow : List (Option ℚ)) (i : ℕ) : Bool :=
  match fast[i]?, slow[i]? with
  | some x, some y => cmpGtOpt x y
  | _, _ => false

/-- Index-wise form of the current-bar comparison `fast[i] < slow[i]`. -/
def ltAt (fast slow : List (Option ℚ)) (i : ℕ) : Bool :=
  match fast[i]?, slow[i]? with
  | some x, some y => cmpLtOpt x y
  | _, _ => false

/-! ## Moving averages (`GoldenCrossStrategy.calculate_indicators`)

`calculate_indicators` calls `talib.MA(close, timeperiod=window)` with the
default `matype=0` (simple moving average): output position `i` is NaN
(`none`) while fewer than `window` inputs ending at `i` exist, and
otherwise the arithmetic mean of the `window` inputs ending at `i`; for
`window` larger than the input length the wrapper returns an all-NaN array
of the input's length instead of failing. -/
/-- Worker for `talibMA`: `acc` is the reversed list of inputs consumed so
far; each step emits the mean of the most recent `period` inputs, or
`none` while fewer than `period` inputs have been seen. -/
def maGo (period : ℕ) (acc : List ℚ) : List ℚ → List (Option ℚ)
  | [] => []
  | x :: xs =>
    (if period ≤ acc.length + 1 then
      some (((x :: acc).take period).sum / (period : ℚ))
    else none) :: maGo period (x :: acc) xs

/-- `talib.MA(prices, timeperiod=period)` with `matype=0`. -/
def talibMA (period : ℕ) (prices : List ℚ) : List (Option ℚ) :=
  maGo period [] prices

/-! ## Strategy construction and backtest plumbing

`GoldenCrossStrategy.__init__` validates `fast_window < slow_window` and
raises `ValueError` otherwise, before anything else happens. The vectorbt
portfolio simulation is an external collaborator and is abstracted as a
function of the close prices, the two signal series and the cash/fee
parameters, returning either per-column metrics or a failure. -/
/-- A validated strategy configuration (`GoldenCrossStrategy`). -/
structure Strategy where
  fast_window : ℕ
  slow_window : ℕ
  initial_cash : ℚ
  fees : ℚ
deriving DecidableEq

/-- `GoldenCrossStrategy.__init__`: raises `ValueError` when
`fast_window >= slow_window`, otherwise stores the four parameters
unchanged. -/
def strategyInit (fast_window slow_window : ℕ) (initial_cash fees : ℚ) :
    Except String Strategy :=
  if fast_window ≥ slow_window then
    Except.error "Fast window must be smaller than slow window"
  else
    Except.ok ⟨fast_window, slow_window, initial_cash, fees⟩

/-- The scalar per-column results the vectorbt portfolio object exposes;
`none` models a float `NaN`. `win_rate` carries the library's raw
`trades.win_rate()` value, before the source's zero-trade guard. -/
structure Metrics where
  total_return : Option ℚ
  sharpe_ratio : Option ℚ
  sortino_ratio : Option ℚ
  calmar_ratio : Option ℚ
  max_drawdown : Option ℚ
  win_rate : Option ℚ
  num_trades : ℕ
deriving DecidableEq

/-- The abstract vectorbt simulation: close prices, entries, exits,
initial cash and fees to per-column metrics, or a raised exception. -/
def Sim : Type :=
  List ℚ → List Bool → List Bool → ℚ → ℚ → Except String Metrics

/-- Models vectorbt's `Trades.win_rate`: winning-trade count (trades with
positive P&L) divided by closed-trade count, which is the float `NaN`
(`none`) when there are no trades (a `0 / 0` division). -/
def vbtWinRate (wins num_trades : ℕ) : Option ℚ :=
  if num_trades = 0 then none else some ((wins : ℚ) / (num_trades : ℚ))

/-- The optimizer's per-row win-rate column (`"Win Rate (%)"`): the code
initializes `win_rate = 0.0` and only reads the library value when
`num_trades > 0`, then multiplies by 100. -/
def optRowWinRatePct (num_trades : ℕ) (lib_win_rate : Option ℚ) : Option ℚ :=
  if 0 < num_trades then lib_win_rate.map (· * 100) else some 0

/-- The single-run metrics panel (`display_backtest_metrics`, line 59):
`win_rate = portfolio.trades.win_rate() * 100` with no zero-trade guard. -/
def displayWinRatePct (wins num_trades : ℕ) : Option ℚ :=
  (vbtWinRate wins num_trades).map (· * 100)

/-- One row of the optimizer's results table (`results_data` entries). -/
structure Row where
  fast_ma : ℤ
  slow_ma : ℤ
  total_return_pct : Option ℚ
  sharpe_ratio : Option ℚ
  sortino_ratio : Option ℚ
  calmar_ratio : Option ℚ
  max_drawdown_pct : Option ℚ
  win_rate_pct : Option ℚ
  num_trades : ℕ
deriving DecidableEq

/-- The nested loop of `optimize_golden_cross`: `fast_range` outer,
`slow_range` inner, skipping (`continue`) every pair with
`fast_w >= slow_w`. -/
def gridCombos (fast_range slow_range : List ℕ) : List (ℕ × ℕ) :=
  fast_range.flatMap (fun f =>
    slow_range.filterMap (fun s => if f < s then some (f, s) else none))

/-- Specification-side enumeration: the Cartesian product of the two
candidate lists in nested-loop order, keeping exactly the pairs with
`f < s`. -/
def survivingPairs (fast_range slow_range : List ℕ) : List (ℕ × ℕ) :=
  (List.product fast_range slow_range).filter (fun p => decide (p.1 < p.2))

/-- The per-pair entry series the optimizer computes
(`strategy.calculate_indicators` then `strategy.generate_signals`). -/
def pairEntries (f s : ℕ) (close_prices : List ℚ) : List Bool :=
  (generateSignals (talibMA f close_prices) (talibMA s close_prices)).1

/-- The per-pair exit series the optimizer computes. -/
def pairExits (f s : ℕ) (close_prices : List ℚ) : List Bool :=
  (generateSignals (talibMA f close_prices) (talibMA s close_prices)).2

/-- One row of `optimize_golden_cross`'s results table: construct the
strategy, compute indicators and signals, simulate, then build the row,
recovering the windows from the textual label exactly as the source does
(`int(label.split(",")[0].split("=")[1])`, `int(label.split("=")[2])`). -/
def rowFor (sim : Sim) (close_prices : List ℚ) (initial_cash fees : ℚ)
    (p : ℕ × ℕ) : Except String Row := do
  let strategy ← strategyInit p.1 p.2 initial_cash fees
  let entries := pairEntries strategy.fast_window strategy.slow_window close_prices
  let exits := pairExits strategy.fast_window strategy.slow_window close_prices
  let label := mkLabel (p.1 : ℤ) (p.2 : ℤ)
  let m ← sim close_prices entries exits initial_cash fees
  let fast_val ← match parseLabelFast label with
    | some v => Except.ok v
    | none => Except.error "invalid literal for int"
  let slow_val ← match parseLabelSlow label with
    | some v => Except.ok v
    | none => Except.error "invalid literal for int"
  Except.ok
    { fast_ma := fast_val
      slow_ma := slow_val
      total_return_pct := m.total_return.map (· * 100)
      sharpe_ratio := m.sharpe_ratio
      sortino_ratio := m.sortino_ratio
      calmar_ratio := m.calmar_ratio
      max_drawdown_pct := m.max_drawdown.map (· * 100)
      win_rate_pct := optRowWinRatePct m.num_trades m.win_rate
      num_trades := m.num_trades }

/-- `optimize_golden_cross`: enumerate the surviving grid, raise
`ValueError` when it is empty, otherwise produce one results row per
surviving pair in enumeration order. -/
def optimizeGoldenCross (sim : Sim) (close_prices : List ℚ)
    (fast_range slow_range : List ℕ) (initial_cash fees : ℚ) :
    Except String (List Row) :=
  let combos := gridCombos fast_range slow_range
  if combos.isEmpty then
    Except.error "No valid parameter combinations found (Fast must be < Slow)"
  else
    combos.mapM (rowFor sim close_prices initial_cash fees)

/-- `GoldenCrossStrategy.run_backtest` on an already-validated strategy:
compute indicators and signals, run the simulation, and return everything;
any exception from the simulation propagates (`except ...: raise`). -/
def runBacktest (sim : Sim) (strategy : Strategy) (close_prices : List ℚ) :
    Except String (Metrics × List (Option ℚ) × List (Option ℚ) ×
      List Bool × List Bool) :=
  (sim close_prices
      (pairEntries strategy.fast_window strategy.slow_window close_prices)
      (pairExits strategy.fast_window strategy.slow_window close_prices)
      strategy.initial_cash strategy.fees).map
    (fun m => (m, talibMA strategy.fast_window close_prices,
      talibMA strategy.slow_window close_prices,
      pairEntries strategy.fast_window strategy.slow_window close_prices,
      pairExits strategy.fast_window strategy.slow_window close_prices))

/-- The single-backtest page's validation (`show_single_backtest_ui`):
the run button is only reachable when `fast_window < slow_window`. -/
def singleBacktestAllowed (fast_window slow_window : ℕ) : Bool :=
  decide (fast_window < slow_window)

/-- The row `rowFor` produces for a valid pair once the simulation
answers: windows recovered from the label, percentages scaled by 100,
win rate guarded by the trade count. -/
def builtRow (f s : ℕ) (m : Metrics) : Row :=
  { fast_ma := (f : ℤ)
    slow_ma := (s : ℤ)
    total_return_pct := m.total_return.map (· * 100)
    sharpe_ratio := m.sharpe_ratio
    sortino_ratio := m.sortino_ratio
    calmar_ratio := m.calmar_ratio
    max_drawdown_pct := m.max_drawdown.map (· * 100)
    win_rate_pct := optRowWinRatePct m.num_trades m.win_rate
    num_trades := m.num_trades }

/-! ## CSV export of the optimization results

`run_golden_cross_optimization` offers the results table as
`results_df_sorted.to_csv(index=False)`: a header line with the nine
column names, one comma-separated line per row, each line terminated by a
newline. `parseCsv` is the corresponding reader. -/
def csvHeader : List Char :=
  "Fast MA,Slow MA,Total Return (%),Sharpe Ratio,Sortino Ratio,Calmar Ratio,Max Drawdown (%),Win Rate (%),Num Trades".toList

/-- The nine cells of one exported row, in column order. -/
def rowCells (r : Row) : List (List Char) :=
  [intRepr r.fast_ma, intRepr r.slow_ma, cellRepr r.total_return_pct,
    cellRepr r.sharpe_ratio, cellRepr r.sortino_ratio,
    cellRepr r.calmar_ratio, cellRepr r.max_drawdown_pct,
    cellRepr r.win_rate_pct, natRepr r.num_trades]

def renderRow (r : Row) : List Char := joinChar ',' (rowCells r)

/-- `DataFrame.to_csv(index=False)`: header line, then one line per row,
every line newline-terminated. -/
def exportCsv (rows : List Row) : List Char :=
  joinChar '\n' (csvHeader :: rows.map renderRow) ++ ['\n']

def parseRow (line : List Char) : Option Row :=
  match splitOnChar ',' line with
  | [c1, c2, c3, c4, c5, c6, c7, c8, c9] => do
    let f ← intParse c1
    let s ← intParse c2
    let tr ← cellParse c3
    let sh ← cellParse c4
    let so ← cellParse c5
    let ca ← cellParse c6
    let dd ← cellParse c7
    let wr ← cellParse c8
    let nt ← natParse c9
    pure ⟨f, s, tr, sh, so, ca, dd, wr, nt⟩
  | _ => none

/-- A trailing newline in the text produces one final empty line after
splitting; the reader discards it. -/
def stripTrailingEmpty (ls : List (List Char)) : List (List Char) :=
  if ls.getLast? = some [] then ls.dropLast else ls

def parseCsv (text : List Char) : Option (List Row) :=
  match stripTrailingEmpty (splitOnChar '\n' text) with
  | [] => none
  | h :: rest => if h = csvHeader then rest.mapM parseRow else none

/-! ## Simulation instances used to instantiate the theorems -/
/-- A trivial simulation that always succeeds with empty metrics. -/
def simTriv : Sim := fun _ _ _ _ _ =>
  Except.ok ⟨none, none, none, none, none, none, 0⟩

/-- A simulation that always raises. -/
def simFail : Sim := fun _ _ _ _ _ => Except.error "boom"

/-! ## Theorems -/

theorem natDigitsAux_spec : ∀ (fuel n : ℕ), n ≤ fuel →
    ofDigitsRev (natDigitsAux fuel n) = n := by
  intro fuel
  induction fuel with
  | zero => intro n hn; interval_cases n; rfl
  | succ fuel ih =>
    intro n hn
    match n with
    | 0 => rfl
    | m + 1 =>
      have hdiv : (m + 1) / 10 ≤ fuel := by
        have := Nat.div_le_self (m + 1) 10
        have := Nat.div_lt_self (Nat.succ_pos m) (by norm_num : 1 < 10)
        omega
      simp only [natDigitsAux, ofDigitsRev, List.foldr_cons]
      have := ih ((m + 1) / 10) hdiv
      simp only [ofDigitsRev] at this
      rw [this]
      omega

theorem natDigitsAux_lt : ∀ (fuel n : ℕ), ∀ d ∈ natDigitsAux fuel n, d < 10 := by
  intro fuel
  induction fuel with
  | zero => intro n d hd; match n with
            | 0 => simp [natDigitsAux] at hd
            | _ + 1 => simp [natDigitsAux] at hd
  | succ fuel ih =>
    intro n d hd
    match n with
    | 0 => simp [natDigitsAux] at hd
    | m + 1 =>
      simp only [natDigitsAux, List.mem_cons] at hd
      rcases hd with h | h
      · subst h; exact Nat.mod_lt _ (by norm_num)
      · exact ih _ _ h

theorem charDigitVal_digitChar {d : ℕ} (hd : d < 10) :
    charDigitVal (digitChar d) = d := by
  interval_cases d <;> rfl

theorem isDigitCh_digitChar {d : ℕ} (hd : d < 10) :
    isDigitCh (digitChar d) = true := by
  interval_cases d <;> rfl

theorem natToDigitsRev_ne_nil {n : ℕ} (h : n ≠ 0) : natToDigitsRev n ≠ [] := by
  unfold natToDigitsRev
  match n, h with
  | m + 1, _ => simp [natDigitsAux]

theorem natRepr_ne_nil (n : ℕ) : natRepr n ≠ [] := by
  unfold natRepr
  split
  · simp
  · rename_i h
    have h2 := natToDigitsRev_ne_nil h
    intro hc
    apply h2
    have := congrArg List.length hc
    simp at this
    exact this

theorem mem_natRepr_isDigit {n : ℕ} {c : Char} (hc : c ∈ natRepr n) :
    isDigitCh c = true := by
  unfold natRepr at hc
  split at hc
  · simp at hc; subst hc; rfl
  · simp only [List.mem_map, List.mem_reverse] at hc
    obtain ⟨d, hd, rfl⟩ := hc
    exact isDigitCh_digitChar (natDigitsAux_lt _ _ _ hd)

theorem map_digit_roundtrip (l : List ℕ) (hl : ∀ d ∈ l, d < 10) :
    l.map (charDigitVal ∘ digitChar) = l := by
  induction l with
  | nil => rfl
  | cons a t ih =>
    simp only [List.map_cons, Function.comp_apply]
    rw [charDigitVal_digitChar (hl a (List.mem_cons_self a t)),
      ih (fun d hd => hl d (List.mem_cons_of_mem _ hd))]

theorem natParse_natRepr (n : ℕ) : natParse (natRepr n) = some n := by
  by_cases h : n = 0
  · subst h; rfl
  · have hall : (natRepr n).all isDigitCh = true := by
      rw [List.all_eq_true]; intro c hc; exact mem_natRepr_isDigit hc
    unfold natParse
    rw [if_pos ⟨natRepr_ne_nil n, hall⟩]
    congr 1
    unfold natRepr
    rw [if_neg h]
    rw [List.map_map, List.map_reverse, List.reverse_reverse]
    rw [map_digit_roundtrip (natToDigitsRev n) (fun d hd => natDigitsAux_lt n n d hd)]
    exact natDigitsAux_spec n n le_rfl

theorem isDigitCh_toNat {c : Char} (h : isDigitCh c = true) :
    48 ≤ c.toNat ∧ c.toNat ≤ 57 := by
  unfold isDigitCh at h
  simp only [Bool.and_eq_true, decide_eq_true_eq] at h
  exact h

theorem isDigitCh_ne_of_lt {c c' : Char} (h : isDigitCh c = true)
    (h' : c'.toNat < 48 ∨ 57 < c'.toNat) : c ≠ c' := by
  intro hc
  subst hc
  have := isDigitCh_toNat h
  omega

theorem natRepr_head_digit (n : ℕ) :
    ∃ c t, natRepr n = c :: t ∧ isDigitCh c = true := by
  match hr : natRepr n with
  | [] => exact absurd hr (natRepr_ne_nil n)
  | c :: t =>
    exact ⟨c, t, rfl, mem_natRepr_isDigit (hr ▸ List.mem_cons_self c t)⟩

theorem intParse_intRepr (i : ℤ) : intParse (intRepr i) = some i := by
  by_cases h : i < 0
  · have h0 : intRepr i = '-' :: natRepr i.natAbs := by
      unfold intRepr; rw [if_pos h]
    rw [h0]
    unfold intParse
    rw [if_pos (by simp)]
    simp only [List.tail_cons, natParse_natRepr, Option.map_some']
    congr 1
    rw [Int.ofNat_natAbs_of_nonpos (le_of_lt h), neg_neg]
  · have h0 : intRepr i = natRepr i.natAbs := by
      unfold intRepr; rw [if_neg h]
    rw [h0]
    unfold intParse
    obtain ⟨c, t, hct, hc⟩ := natRepr_head_digit i.natAbs
    have hne : c ≠ '-' := isDigitCh_ne_of_lt hc (by left; decide)
    rw [if_neg (by rw [hct]; simp [hne])]
    rw [natParse_natRepr]
    simp only [Option.map_some']
    congr 1
    exact Int.natAbs_of_nonneg (not_lt.mp h)

theorem mem_intRepr {i : ℤ} {c : Char} (hc : c ∈ intRepr i) :
    isDigitCh c = true ∨ c = '-' := by
  unfold intRepr at hc
  split at hc
  · rcases List.mem_cons.mp hc with h | h
    · right; exact h
    · left; exact mem_natRepr_isDigit h
  · left; exact mem_natRepr_isDigit hc

theorem intRepr_ne_nil (i : ℤ) : intRepr i ≠ [] := by
  unfold intRepr
  split
  · simp
  · exact natRepr_ne_nil _

theorem splitOnChar_cons (sep c : Char) (cs : List Char) :
    splitOnChar sep (c :: cs) =
      match splitOnChar sep cs with
      | [] => [[]]
      | h :: t => if c = sep then [] :: h :: t else (c :: h) :: t := rfl

theorem splitOnChar_ne_nil (sep : Char) (l : List Char) :
    splitOnChar sep l ≠ [] := by
  induction l with
  | nil => simp [splitOnChar]
  | cons c cs ih =>
    rw [splitOnChar_cons]
    cases hs : splitOnChar sep cs with
    | nil => simp
    | cons h' t => dsimp only; split <;> simp

theorem splitOnChar_not_mem {sep : Char} {l : List Char} (h : sep ∉ l) :
    splitOnChar sep l = [l] := by
  induction l with
  | nil => rfl
  | cons c cs ih =>
    have hc : c ≠ sep := fun hc => h (hc ▸ List.mem_cons_self c cs)
    have hcs : sep ∉ cs := fun hm => h (List.mem_cons_of_mem _ hm)
    rw [splitOnChar_cons, ih hcs]
    simp [hc]

theorem splitOnChar_append_cons {sep : Char} {xs : List Char}
    (h : sep ∉ xs) (ys : List Char) :
    splitOnChar sep (xs ++ sep :: ys) = xs :: splitOnChar sep ys := by
  induction xs with
  | nil =>
    simp only [List.nil_append]
    rw [splitOnChar_cons]
    cases hs : splitOnChar sep ys with
    | nil => exact absurd hs (splitOnChar_ne_nil sep ys)
    | cons h' t => simp
  | cons c cs ih =>
    have hc : c ≠ sep := fun hc => h (hc ▸ List.mem_cons_self c cs)
    have hcs : sep ∉ cs := fun hm => h (List.mem_cons_of_mem _ hm)
    simp only [List.cons_append]
    rw [splitOnChar_cons, ih hcs]
    simp [hc]

theorem splitOnChar_joinChar {sep : Char} :
    ∀ {parts : List (List Char)}, parts ≠ [] →
    (∀ p ∈ parts, sep ∉ p) →
    splitOnChar sep (joinChar sep parts) = parts := by
  intro parts
  induction parts with
  | nil => intro h; exact absurd rfl h
  | cons p rest ih =>
    intro _ hmem
    match rest with
    | [] =>
      show splitOnChar sep (joinChar sep [p]) = [p]
      exact splitOnChar_not_mem (hmem p (List.mem_cons_self p []))
    | q :: rest' =>
      show splitOnChar sep (p ++ sep :: joinChar sep (q :: rest')) = _
      rw [splitOnChar_append_cons (hmem p (List.mem_cons_self _ _))]
      rw [ih (by simp) (fun x hx => hmem x (List.mem_cons_of_mem _ hx))]

theorem mem_joinChar {sep c : Char} :
    ∀ {parts : List (List Char)}, c ∈ joinChar sep parts →
    c = sep ∨ ∃ p ∈ parts, c ∈ p := by
  intro parts
  induction parts with
  | nil => intro h; simp [joinChar] at h
  | cons p rest ih =>
    intro h
    match rest with
    | [] =>
      right; exact ⟨p, List.mem_cons_self p [], h⟩
    | q :: rest' =>
      simp only [joinChar, List.mem_append, List.mem_cons] at h
      rcases h with h | h | h
      · right; exact ⟨p, List.mem_cons_self _ _, h⟩
      · left; exact h
      · rcases ih h with h' | ⟨p', hp', hc⟩
        · left; exact h'
        · right; exact ⟨p', List.mem_cons_of_mem _ hp', hc⟩

theorem joinChar_append_empty {sep : Char} :
    ∀ {parts : List (List Char)}, parts ≠ [] →
    joinChar sep parts ++ [sep] = joinChar sep (parts ++ [[]]) := by
  intro parts
  induction parts with
  | nil => intro h; exact absurd rfl h
  | cons p rest ih =>
    intro _
    match rest with
    | [] => rfl
    | q :: rest' =>
      show (p ++ sep :: joinChar sep (q :: rest')) ++ [sep] = _
      rw [List.append_assoc]
      show _ = joinChar sep (p :: ((q :: rest') ++ [[]]))
      have : joinChar sep (p :: ((q :: rest') ++ [[]])) =
          p ++ sep :: joinChar sep ((q :: rest') ++ [[]]) := rfl
      rw [this, ← ih (by simp)]
      rfl

theorem not_mem_natRepr {n : ℕ} {c : Char} (h1 : isDigitCh c = false) :
    c ∉ natRepr n := by
  intro hm
  rw [mem_natRepr_isDigit hm] at h1
  cases h1

theorem not_mem_intRepr {i : ℤ} {c : Char} (h1 : isDigitCh c = false)
    (h2 : c ≠ '-') : c ∉ intRepr i := by
  intro hm
  rcases mem_intRepr hm with h | h
  · rw [h] at h1; cases h1
  · exact h2 h

theorem ratParse_ratRepr (q : ℚ) : ratParse (ratRepr q) = some q := by
  unfold ratParse ratRepr
  rw [splitOnChar_append_cons (not_mem_intRepr (by decide) (by decide)),
    splitOnChar_not_mem (not_mem_natRepr (by decide))]
  simp only [intParse_intRepr, natParse_natRepr, Option.bind_eq_bind,
    Option.some_bind]
  show some ((q.num : ℚ) / (q.den : ℚ)) = some q
  rw [Rat.num_div_den]

theorem mem_ratRepr {q : ℚ} {c : Char} (hc : c ∈ ratRepr q) :
    isDigitCh c = true ∨ c = '-' ∨ c = '/' := by
  unfold ratRepr at hc
  rcases List.mem_append.mp hc with h | h
  · rcases mem_intRepr h with h' | h'
    · left; exact h'
    · right; left; exact h'
  · rcases List.mem_cons.mp h with h' | h'
    · right; right; exact h'
    · left; exact mem_natRepr_isDigit h'

theorem ratRepr_ne_nil (q : ℚ) : ratRepr q ≠ [] := by
  unfold ratRepr
  intro h
  exact intRepr_ne_nil q.num (List.append_eq_nil.mp h).1

theorem cellParse_cellRepr (o : Option ℚ) : cellParse (cellRepr o) = some o := by
  match o with
  | none => rfl
  | some q =>
    unfold cellParse cellRepr
    rw [if_neg (ratRepr_ne_nil q), ratParse_ratRepr]
    rfl

theorem mem_cellRepr {o : Option ℚ} {c : Char} (hc : c ∈ cellRepr o) :
    isDigitCh c = true ∨ c = '-' ∨ c = '/' := by
  match o with
  | none => cases hc
  | some q => exact mem_ratRepr hc

theorem parseLabelFast_mkLabel (f s : ℤ) :
    parseLabelFast (mkLabel f s) = some f := by
  have h1 : mkLabel f s =
      (fastEqChars ++ intRepr f) ++
        ',' :: ([' ', 'S', 'l', 'o', 'w', '='] ++ intRepr s) := by
    simp [mkLabel, fastEqChars, commaSlowEqChars]
  have hcomma : ',' ∉ fastEqChars ++ intRepr f := by
    intro hm
    rcases List.mem_append.mp hm with h | h
    · simp [fastEqChars] at h
    · exact not_mem_intRepr (by decide) (by decide) h
  unfold parseLabelFast
  rw [h1, splitOnChar_append_cons hcomma]
  simp only [List.headD_cons]
  have h2 : fastEqChars ++ intRepr f =
      ['F', 'a', 's', 't'] ++ '=' :: intRepr f := by
    simp [fastEqChars]
  rw [h2, splitOnChar_append_cons (by decide),
    splitOnChar_not_mem (not_mem_intRepr (by decide) (by decide))]
  simp only [List.getD_cons_succ, List.getD_cons_zero]
  exact intParse_intRepr f

theorem parseLabelSlow_mkLabel (f s : ℤ) :
    parseLabelSlow (mkLabel f s) = some s := by
  have h1 : mkLabel f s =
      ['F', 'a', 's', 't'] ++
        '=' :: ((intRepr f ++ [',', ' ', 'S', 'l', 'o', 'w']) ++
          '=' :: intRepr s) := by
    simp [mkLabel, fastEqChars, commaSlowEqChars]
  have heq : '=' ∉ intRepr f ++ [',', ' ', 'S', 'l', 'o', 'w'] := by
    intro hm
    rcases List.mem_append.mp hm with h | h
    · exact not_mem_intRepr (by decide) (by decide) h
    · simp at h
  unfold parseLabelSlow
  rw [h1, splitOnChar_append_cons (by decide), splitOnChar_append_cons heq,
    splitOnChar_not_mem (not_mem_intRepr (by decide) (by decide))]
  simp only [List.getD_cons_succ, List.getD_cons_zero]
  exact intParse_intRepr s

theorem zipWith_getElem? (f : α → β → γ) :
    ∀ (a : List α) (b : List β) (i : ℕ),
    (List.zipWith f a b)[i]? =
      (a[i]?).bind (fun x => (b[i]?).map (fun y => f x y)) := by
  intro a
  induction a with
  | nil => intro b i; simp
  | cons x xs ih =>
    intro b i
    match b with
    | [] => simp
    | y :: ys =>
      match i with
      | 0 => simp
      | j + 1 => simpa using ih ys j

theorem shiftFill_length (fill : Bool) (l : List Bool) :
    (shiftFill fill l).length = l.length := by
  simp [shiftFill]

theorem shiftFill_getElem?_zero {l : List Bool} (fill : Bool)
    (h : 0 < l.length) : (shiftFill fill l)[0]? = some fill := by
  unfold shiftFill
  rw [List.getElem?_take, if_pos h]
  simp

theorem shiftFill_getElem?_succ (fill : Bool) (l : List Bool) (j : ℕ)
    (h : j + 1 < l.length) : (shiftFill fill l)[j + 1]? = l[j]? := by
  unfold shiftFill
  rw [List.getElem?_take, if_pos h]
  simp

theorem fastAbove_getElem? (fast slow : List (Option ℚ)) (i : ℕ)
    (h : fast.length = slow.length) (hi : i < fast.length) :
    (List.zipWith cmpGtOpt fast slow)[i]? = some (gtAt fast slow i) := by
  have h1 : fast[i]? = some fast[i] := List.getElem?_eq_getElem hi
  have h2 : slow[i]? = some slow[i] :=
    List.getElem?_eq_getElem (by omega : i < slow.length)
  rw [zipWith_getElem?, h1, h2]
  unfold gtAt
  rw [h1, h2]
  rfl

theorem fastBelow_getElem? (fast slow : List (Option ℚ)) (i : ℕ)
    (h : fast.length = slow.length) (hi : i < fast.length) :
    (List.zipWith cmpLtOpt fast slow)[i]? = some (ltAt fast slow i) := by
  have h1 : fast[i]? = some fast[i] := List.getElem?_eq_getElem hi
  have h2 : slow[i]? = some slow[i] :=
    List.getElem?_eq_getElem (by omega : i < slow.length)
  rw [zipWith_getElem?, h1, h2]
  unfold ltAt
  rw [h1, h2]
  rfl

theorem crossSeries_getElem? (base : List Bool) (at_i : ℕ → Bool)
    (hbase : ∀ i, i < base.length → base[i]? = some (at_i i)) (i : ℕ)
    (hi : i < base.length) :
    (List.zipWith (fun a b => a && !b) base (shiftFill false base))[i]? =
      some (at_i i && !(decide (i ≠ 0) && at_i (i - 1))) := by
  rw [zipWith_getElem?, hbase i hi]
  match i with
  | 0 =>
    rw [shiftFill_getElem?_zero false (by omega)]
    simp
  | j + 1 =>
    rw [shiftFill_getElem?_succ false base j hi, hbase j (by omega)]
    simp

theorem entries_getElem? (fast slow : List (Option ℚ))
    (h : fast.length = slow.length) (i : ℕ) (hi : i < fast.length) :
    (generateSignals fast slow).1[i]? =
      some (gtAt fast slow i && !(decide (i ≠ 0) && gtAt fast slow (i - 1))) := by
  have hlen : (List.zipWith cmpGtOpt fast slow).length = fast.length := by
    simp [List.length_zipWith, h]
  exact crossSeries_getElem? _ _
    (fun j hj => fastAbove_getElem? fast slow j h (by omega)) i (by omega)

theorem exits_getElem? (fast slow : List (Option ℚ))
    (h : fast.length = slow.length) (i : ℕ) (hi : i < fast.length) :
    (generateSignals fast slow).2[i]? =
      some (ltAt fast slow i && !(decide (i ≠ 0) && ltAt fast slow (i - 1))) := by
  have hlen : (List.zipWith cmpLtOpt fast slow).length = fast.length := by
    simp [List.length_zipWith, h]
  exact crossSeries_getElem? _ _
    (fun j hj => fastBelow_getElem? fast slow j h (by omega)) i (by omega)

theorem entries_length (fast slow : List (Option ℚ))
    (h : fast.length = slow.length) :
    (generateSignals fast slow).1.length = fast.length := by
  simp [generateSignals, shiftFill_length, List.length_zipWith, h]

theorem exits_length (fast slow : List (Option ℚ))
    (h : fast.length = slow.length) :
    (generateSignals fast slow).2.length = fast.length := by
  simp [generateSignals, shiftFill_length, List.length_zipWith, h]

theorem maGo_cons (period : ℕ) (acc : List ℚ) (x : ℚ) (xs : List ℚ) :
    maGo period acc (x :: xs) =
      (if period ≤ acc.length + 1 then
        some (((x :: acc).take period).sum / (period : ℚ))
      else none) :: maGo period (x :: acc) xs := rfl

theorem maGo_length (period : ℕ) :
    ∀ (rest acc : List ℚ), (maGo period acc rest).length = rest.length := by
  intro rest
  induction rest with
  | nil => intro acc; rfl
  | cons x xs ih => intro acc; rw [maGo_cons]; simp [ih]

theorem talibMA_length (period : ℕ) (prices : List ℚ) :
    (talibMA period prices).length = prices.length :=
  maGo_length period prices []

theorem window_slice (x : ℚ) (acc rest : List ℚ) (w : ℕ)
    (hw : w ≤ acc.length + 1) :
    ((acc.reverse ++ x :: rest).drop (acc.length + 1 - w)).take w =
      ((x :: acc).take w).reverse := by
  have hA : acc.reverse ++ x :: rest = (x :: acc).reverse ++ rest := by simp
  rw [hA]
  rw [List.drop_append_of_le_length
    (by simp only [List.length_reverse, List.length_cons]; omega)]
  rw [List.drop_reverse]
  have h2 : (x :: acc).length - (acc.length + 1 - w) = w := by simp; omega
  rw [h2]
  apply List.take_left'
  simp
  omega

theorem maGo_getElem? (w : ℕ) :
    ∀ (rest acc : List ℚ) (i : ℕ), i < rest.length →
    (maGo w acc rest)[i]? = some (
      if acc.length + i + 1 < w then none
      else some ((((acc.reverse ++ rest).drop (acc.length + i + 1 - w)).take w).sum
        / (w : ℚ))) := by
  intro rest
  induction rest with
  | nil => intro acc i hi; simp at hi
  | cons x xs ih =>
    intro acc i hi
    match i with
    | 0 =>
      rw [maGo_cons, List.getElem?_cons_zero]
      by_cases hcond : w ≤ acc.length + 1
      · rw [if_pos hcond, if_neg (by omega)]
        rw [window_slice x acc xs w hcond, List.sum_reverse]
      · rw [if_neg hcond, if_pos (by omega)]
    | j + 1 =>
      rw [maGo_cons, List.getElem?_cons_succ]
      rw [ih (x :: acc) j (by simpa using hi)]
      have harith : (x :: acc).length + j + 1 = acc.length + (j + 1) + 1 := by
        simp; omega
      have hlist : (x :: acc).reverse ++ xs = acc.reverse ++ x :: xs := by simp
      rw [harith, hlist]

theorem talibMA_getElem? (w : ℕ) (prices : List ℚ) (i : ℕ)
    (hi : i < prices.length) :
    (talibMA w prices)[i]? = some (
      if i + 1 < w then none
      else some (((prices.drop (i + 1 - w)).take w).sum / (w : ℚ))) := by
  have h := maGo_getElem? w prices [] i hi
  simpa using h

theorem maGo_all_none (w : ℕ) :
    ∀ (rest acc : List ℚ), rest.length + acc.length < w →
    ∀ v ∈ maGo w acc rest, v = none := by
  intro rest
  induction rest with
  | nil => intro acc _ v hv; cases hv
  | cons x xs ih =>
    intro acc hlen v hv
    rw [maGo_cons] at hv
    rcases List.mem_cons.mp hv with h | h
    · rw [if_neg (by simp at hlen ⊢; omega)] at h
      exact h
    · exact ih (x :: acc) (by simp at hlen ⊢; omega) v h

theorem filterMap_if_lt (f : ℕ) (ss : List ℕ) :
    ss.filterMap (fun s => if f < s then some (f, s) else none) =
      (ss.map (Prod.mk f)).filter (fun p => decide (p.1 < p.2)) := by
  induction ss with
  | nil => rfl
  | cons s ss ih =>
    simp only [List.filterMap_cons, List.map_cons, List.filter_cons]
    by_cases hfs : f < s
    · rw [if_pos hfs, ih]
      simp [hfs]
    · rw [if_neg hfs, ih]
      simp [hfs]

theorem gridCombos_eq_survivingPairs (fast_range slow_range : List ℕ) :
    gridCombos fast_range slow_range = survivingPairs fast_range slow_range := by
  unfold gridCombos survivingPairs List.product
  induction fast_range with
  | nil => rfl
  | cons f fs ih =>
    simp only [List.flatMap_cons, List.filter_append]
    rw [ih, filterMap_if_lt]

theorem exceptBind_ok {ε α β : Type} (x : α) (f : α → Except ε β) :
    (Except.ok x >>= f) = f x := rfl

theorem exceptBind_error {ε α β : Type} (e : ε) (f : α → Except ε β) :
    ((Except.error e : Except ε α) >>= f) = Except.error e := rfl

theorem rowFor_eq (sim : Sim) (close_prices : List ℚ) (cash fees : ℚ)
    (f s : ℕ) (m : Metrics) (hfs : f < s)
    (hm : sim close_prices (pairEntries f s close_prices)
      (pairExits f s close_prices) cash fees = Except.ok m) :
    rowFor sim close_prices cash fees (f, s) = Except.ok (builtRow f s m) := by
  have h1 : strategyInit f s cash fees = Except.ok ⟨f, s, cash, fees⟩ := by
    unfold strategyInit
    rw [if_neg (by omega)]
  unfold rowFor
  rw [h1, exceptBind_ok]
  simp only
  rw [hm, exceptBind_ok]
  rw [parseLabelFast_mkLabel, parseLabelSlow_mkLabel]
  rfl

theorem mapM_ok_forall {α β : Type} {f : α → Except String β}
    {P : α → β → Prop} :
    ∀ {l : List α}, (∀ a ∈ l, ∃ b, f a = Except.ok b ∧ P a b) →
    ∃ out, l.mapM f = Except.ok out ∧ List.Forall₂ P l out := by
  intro l
  induction l with
  | nil => intro _; exact ⟨[], by simp [List.mapM_nil]; rfl, List.Forall₂.nil⟩
  | cons a t ih =>
    intro h
    obtain ⟨b, hb, hPb⟩ := h a (List.mem_cons_self a t)
    obtain ⟨out, hout, hP⟩ := ih (fun x hx => h x (List.mem_cons_of_mem _ hx))
    refine ⟨b :: out, ?_, List.Forall₂.cons hPb hP⟩
    rw [List.mapM_cons, hb, exceptBind_ok, hout, exceptBind_ok]
    rfl

theorem mapM_ok_mem {α β : Type} {f : α → Except String β} :
    ∀ {l : List α} {out : List β}, l.mapM f = Except.ok out →
    ∀ a ∈ l, (f a).isOk = true := by
  intro l
  induction l with
  | nil => intro out _ a ha; cases ha
  | cons x t ih =>
    intro out h a ha
    rw [List.mapM_cons] at h
    cases hfx : f x with
    | error e => rw [hfx, exceptBind_error] at h; cases h
    | ok b =>
      rw [hfx, exceptBind_ok] at h
      cases hmt : t.mapM f with
      | error e => rw [hmt, exceptBind_error] at h; cases h
      | ok bs =>
        rcases List.mem_cons.mp ha with h' | h'
        · subst h'; rw [hfx]; rfl
        · exact ih hmt a h'

theorem comma_not_mem_cellRepr (o : Option ℚ) : ',' ∉ cellRepr o := by
  intro h
  rcases mem_cellRepr h with h' | h' | h' <;> exact absurd h' (by decide)

theorem newline_not_mem_cellRepr (o : Option ℚ) :
    '\n' ∉ cellRepr o := by
  intro h
  rcases mem_cellRepr h with h' | h' | h' <;> exact absurd h' (by decide)

theorem splitOnChar_renderRow (r : Row) :
    splitOnChar ',' (renderRow r) = rowCells r := by
  apply splitOnChar_joinChar
  · simp [rowCells]
  · intro p hp
    simp only [rowCells, List.mem_cons, List.not_mem_nil, or_false] at hp
    rcases hp with h | h | h | h | h | h | h | h | h <;> subst h
    · exact not_mem_intRepr (by decide) (by decide)
    · exact not_mem_intRepr (by decide) (by decide)
    · exact comma_not_mem_cellRepr _
    · exact comma_not_mem_cellRepr _
    · exact comma_not_mem_cellRepr _
    · exact comma_not_mem_cellRepr _
    · exact comma_not_mem_cellRepr _
    · exact comma_not_mem_cellRepr _
    · exact not_mem_natRepr (by decide)

theorem parseRow_renderRow (r : Row) : parseRow (renderRow r) = some r := by
  unfold parseRow
  rw [splitOnChar_renderRow]
  show (do
    let f ← intParse (intRepr r.fast_ma)
    let s ← intParse (intRepr r.slow_ma)
    let tr ← cellParse (cellRepr r.total_return_pct)
    let sh ← cellParse (cellRepr r.sharpe_ratio)
    let so ← cellParse (cellRepr r.sortino_ratio)
    let ca ← cellParse (cellRepr r.calmar_ratio)
    let dd ← cellParse (cellRepr r.max_drawdown_pct)
    let wr ← cellParse (cellRepr r.win_rate_pct)
    let nt ← natParse (natRepr r.num_trades)
    pure ⟨f, s, tr, sh, so, ca, dd, wr, nt⟩ : Option Row) = some r
  rw [intParse_intRepr, intParse_intRepr, cellParse_cellRepr,
    cellParse_cellRepr, cellParse_cellRepr, cellParse_cellRepr,
    cellParse_cellRepr, cellParse_cellRepr, natParse_natRepr]
  rfl

theorem newline_not_mem_renderRow (r : Row) : '\n' ∉ renderRow r := by
  intro h
  rcases mem_joinChar h with h' | ⟨p, hp, hc⟩
  · exact absurd h' (by decide)
  · simp only [rowCells, List.mem_cons, List.not_mem_nil, or_false] at hp
    rcases hp with h | h | h | h | h | h | h | h | h <;> subst h
    · exact not_mem_intRepr (by decide) (by decide) hc
    · exact not_mem_intRepr (by decide) (by decide) hc
    · exact newline_not_mem_cellRepr _ hc
    · exact newline_not_mem_cellRepr _ hc
    · exact newline_not_mem_cellRepr _ hc
    · exact newline_not_mem_cellRepr _ hc
    · exact newline_not_mem_cellRepr _ hc
    · exact newline_not_mem_cellRepr _ hc
    · exact not_mem_natRepr (by decide) hc

set_option maxRecDepth 100000 in
theorem newline_not_mem_csvHeader : '\n' ∉ csvHeader := by
  decide

theorem splitOnChar_exportCsv (rows : List Row) :
    splitOnChar '\n' (exportCsv rows) =
      (csvHeader :: rows.map renderRow) ++ [[]] := by
  unfold exportCsv
  rw [joinChar_append_empty (by simp)]
  apply splitOnChar_joinChar
  · simp
  · intro p hp
    rcases List.mem_append.mp hp with h | h
    · rcases List.mem_cons.mp h with h1 | h1
      · subst h1; exact newline_not_mem_csvHeader
      · obtain ⟨r, _, rfl⟩ := List.mem_map.mp h1
        exact newline_not_mem_renderRow r
    · rcases List.mem_cons.mp h with h1 | h1
      · subst h1; simp
      · cases h1

theorem mapM_parseRow (rows : List Row) :
    (rows.map renderRow).mapM parseRow = some rows := by
  induction rows with
  | nil => rfl
  | cons r t ih =>
    rw [List.map_cons, List.mapM_cons, parseRow_renderRow]
    simp only [Option.bind_eq_bind, Option.some_bind, ih]
    rfl

theorem parseCsv_exportCsv (rows : List Row) :
    parseCsv (exportCsv rows) = some rows := by
  unfold parseCsv
  rw [splitOnChar_exportCsv]
  have h1 : stripTrailingEmpty ((csvHeader :: rows.map renderRow) ++ [[]]) =
      csvHeader :: rows.map renderRow := by
    unfold stripTrailingEmpty
    rw [List.getLast?_concat, if_pos rfl]
    exact List.dropLast_concat
  rw [h1]
  show (if csvHeader = csvHeader then (rows.map renderRow).mapM parseRow
    else none) = some rows
  rw [if_pos rfl]
  exact mapM_parseRow rows

theorem generateSignals_fst (fast slow : List (Option ℚ)) :
    (generateSignals fast slow).1 =
      List.zipWith (fun a b => a && !b) (List.zipWith cmpGtOpt fast slow)
        (shiftFill false (List.zipWith cmpGtOpt fast slow)) := rfl

theorem generateSignals_snd (fast slow : List (Option ℚ)) :
    (generateSignals fast slow).2 =
      List.zipWith (fun a b => a && !b) (List.zipWith cmpLtOpt fast slow)
        (shiftFill false (List.zipWith cmpLtOpt fast slow)) := rfl

theorem cmpLtOpt_eq_false_of_gt {x y : Option ℚ} (h : cmpGtOpt x y = true) :
    cmpLtOpt x y = false := by
  cases x with
  | none => cases h
  | some a =>
    cases y with
    | none => cases h
    | some b =>
      simp only [cmpGtOpt, decide_eq_true_eq] at h
      simp only [cmpLtOpt, decide_eq_false_iff_not]
      exact not_lt.mpr (le_of_lt h)

/-! ## Claim theorems -/
/-- C1 counterexample: the claim demands `entries[0] = false` for every
pair of equal-length series, but for `fast = [2]`, `slow = [1]` the code's
`shift(1, fill_value=False)` makes `entries[0] = (fast[0] > slow[0]) and
not False = true`. -/
theorem C1_counterexample :
    (generateSignals [some (2 : ℚ)] [some (1 : ℚ)]).1[0]? = some true ∧
      some true ≠ some false := by
  constructor
  · decide
  · decide

/-- C1 (amended): `entries` and `exits` have the input length; for every
position `i`, `entries[i] = (fast[i] > slow[i]) and not (i > 0 and
fast[i-1] > slow[i-1])` and `exits[i] = (fast[i] < slow[i]) and not
(i > 0 and fast[i-1] < slow[i-1])`, where every comparison touching an
undefined (`none`) value — current or prior — is false. At `i = 0` the
shifted prior comparison is the fill value `False`, so `entries[0]`
reduces to the current-bar comparison rather than the constant `false`. -/
theorem C1_signal_formula (fast slow : List (Option ℚ))
    (h : fast.length = slow.length) :
    (generateSignals fast slow).1.length = fast.length ∧
    (generateSignals fast slow).2.length = fast.length ∧
    (∀ i, i < fast.length →
      (generateSignals fast slow).1[i]? =
        some (gtAt fast slow i &&
          !(decide (i ≠ 0) && gtAt fast slow (i - 1)))) ∧
    (∀ i, i < fast.length →
      (generateSignals fast slow).2[i]? =
        some (ltAt fast slow i &&
          !(decide (i ≠ 0) && ltAt fast slow (i - 1)))) :=
  ⟨entries_length fast slow h, exits_length fast slow h,
    fun i hi => entries_getElem? fast slow h i hi,
    fun i hi => exits_getElem? fast slow h i hi⟩

theorem C1_witness :
    (generateSignals [none, some (3 : ℚ)] [some (1 : ℚ), some (2 : ℚ)]).1[1]? =
      some (gtAt [none, some (3 : ℚ)] [some (1 : ℚ), some (2 : ℚ)] 1 &&
        !(decide ((1 : ℕ) ≠ 0) &&
          gtAt [none, some (3 : ℚ)] [some (1 : ℚ), some (2 : ℚ)] 0)) ∧
    (generateSignals [none, some (3 : ℚ)] [some (1 : ℚ), some (2 : ℚ)]).1[1]? =
      some true := by
  constructor
  · exact (C1_signal_formula [none, some (3 : ℚ)]
      [some (1 : ℚ), some (2 : ℚ)] rfl).2.2.1 1 (by decide)
  · decide

/-- C7: an entry and an exit can never fire at the same position, because
an entry needs `fast[i] > slow[i]` while an exit needs
`fast[i] < slow[i]`, and NaN comparisons are false for both. -/
theorem C7_entries_exits_exclusive (fast slow : List (Option ℚ)) (i : ℕ)
    (h1 : (generateSignals fast slow).1[i]? = some true) :
    (generateSignals fast slow).2[i]? ≠ some true := by
  intro h2
  rw [generateSignals_fst, zipWith_getElem?] at h1
  rw [generateSignals_snd, zipWith_getElem?] at h2
  cases hfa : (List.zipWith cmpGtOpt fast slow)[i]? with
  | none => rw [hfa] at h1; cases h1
  | some a =>
    rw [hfa] at h1
    cases hsh : (shiftFill false (List.zipWith cmpGtOpt fast slow))[i]? with
    | none => rw [hsh] at h1; cases h1
    | some b =>
      rw [hsh] at h1
      simp only [Option.some_bind, Option.map_some', Option.some.injEq,
        Bool.and_eq_true] at h1
      cases hfb : (List.zipWith cmpLtOpt fast slow)[i]? with
      | none => rw [hfb] at h2; cases h2
      | some a' =>
        rw [hfb] at h2
        cases hsh' :
            (shiftFill false (List.zipWith cmpLtOpt fast slow))[i]? with
        | none => rw [hsh'] at h2; cases h2
        | some b' =>
          rw [hsh'] at h2
          simp only [Option.some_bind, Option.map_some', Option.some.injEq,
            Bool.and_eq_true] at h2
          rw [zipWith_getElem?] at hfa hfb
          cases hx : fast[i]? with
          | none => rw [hx] at hfa; cases hfa
          | some x =>
            rw [hx] at hfa hfb
            cases hy : slow[i]? with
            | none => rw [hy] at hfa; cases hfa
            | some y =>
              rw [hy] at hfa hfb
              simp only [Option.some_bind, Option.map_some',
                Option.some.injEq] at hfa hfb
              have hgt : cmpGtOpt x y = true := by rw [hfa]; exact h1.1
              have hlt : cmpLtOpt x y = true := by rw [hfb]; exact h2.1
              rw [cmpLtOpt_eq_false_of_gt hgt] at hlt
              cases hlt

theorem C7_witness :
    (generateSignals [some (1 : ℚ), some (2 : ℚ)]
      [some (2 : ℚ), some (1 : ℚ)]).1[1]? = some true ∧
    (generateSignals [some (1 : ℚ), some (2 : ℚ)]
      [some (2 : ℚ), some (1 : ℚ)]).2[1]? ≠ some true := by
  constructor
  · decide
  · exact C7_entries_exits_exclusive [some (1 : ℚ), some (2 : ℚ)]
      [some (2 : ℚ), some (1 : ℚ)] 1 (by decide)

/-- C5: the indicator is a simple moving average: full input length,
position `i` undefined while `i + 1 < window` and otherwise the
arithmetic mean of the `window` inputs ending at `i`; a window larger
than the series length yields an all-undefined series (and the function
is total — nothing is raised). -/
theorem C5_indicator_sma (close_prices : List ℚ) (window : ℕ)
    (_hw : 1 ≤ window) :
    (talibMA window close_prices).length = close_prices.length ∧
    (∀ i, i < close_prices.length →
      (talibMA window close_prices)[i]? = some (
        if i + 1 < window then none
        else some (((close_prices.drop (i + 1 - window)).take window).sum
          / (window : ℚ)))) ∧
    (close_prices.length < window →
      ∀ v ∈ talibMA window close_prices, v = none) := by
  refine ⟨talibMA_length window close_prices,
    fun i hi => talibMA_getElem? window close_prices i hi, fun hlen => ?_⟩
  intro v hv
  exact maGo_all_none window close_prices [] (by simpa using hlen) v hv

theorem C5_witness :
    (talibMA 2 [(1 : ℚ), 2, 3]).length = 3 ∧
    (talibMA 2 [(1 : ℚ), 2, 3])[1]? = some (
      if 1 + 1 < 2 then none
      else some (((([(1 : ℚ), 2, 3]).drop (1 + 1 - 2)).take 2).sum
        / ((2 : ℕ) : ℚ))) ∧
    (talibMA 2 [(1 : ℚ), 2, 3])[0]? = some none ∧
    (talibMA 5 [(1 : ℚ), 2, 3]) = [none, none, none] := by
  refine ⟨(C5_indicator_sma [(1 : ℚ), 2, 3] 2 (by decide)).1,
    (C5_indicator_sma [(1 : ℚ), 2, 3] 2 (by decide)).2.1 1 (by decide),
    rfl, rfl⟩

/-- C6 counterexample: with zero closed trades the single-run metrics
panel multiplies the library's NaN win rate by 100 and shows NaN, not
the 0 the claim requires. -/
theorem C6_counterexample :
    displayWinRatePct 0 0 = none ∧ (none : Option ℚ) ≠ some 0 := by
  constructor
  · rfl
  · decide

/-- C6 (amended): the optimizer's per-row win rate is the winning-trade
share scaled to percent when there are trades and exactly 0 when the
trade count is 0; the single-run metrics panel, which lacks the
zero-trade guard, shows the same percentage when trades exist but NaN
(`none`) when the trade count is 0. -/
theorem C6_win_rate (wins num_trades : ℕ) :
    (num_trades = 0 →
      optRowWinRatePct num_trades (vbtWinRate wins num_trades) = some 0 ∧
      displayWinRatePct wins num_trades = none) ∧
    (0 < num_trades →
      optRowWinRatePct num_trades (vbtWinRate wins num_trades) =
        some ((wins : ℚ) / (num_trades : ℚ) * 100) ∧
      displayWinRatePct wins num_trades =
        some ((wins : ℚ) / (num_trades : ℚ) * 100)) := by
  constructor
  · intro h
    subst h
    constructor
    · rfl
    · unfold displayWinRatePct vbtWinRate
      rw [if_pos rfl]
      rfl
  · intro h
    have hne : num_trades ≠ 0 := by omega
    constructor
    · unfold optRowWinRatePct vbtWinRate
      rw [if_pos h, if_neg hne]
      rfl
    · unfold displayWinRatePct vbtWinRate
      rw [if_neg hne]
      rfl

theorem C6_witness :
    optRowWinRatePct 0 (vbtWinRate 0 0) = some 0 ∧
    displayWinRatePct 0 0 = none ∧
    optRowWinRatePct 2 (vbtWinRate 1 2) =
      some (((1 : ℕ) : ℚ) / ((2 : ℕ) : ℚ) * 100) :=
  ⟨((C6_win_rate 0 0).1 rfl).1, ((C6_win_rate 0 0).1 rfl).2,
    ((C6_win_rate 1 2).2 (by decide)).1⟩

/-- C2: with a simulation that always answers, the optimizer raises the
`ValueError` exactly when no pair survives the `f < s` filter, and
otherwise returns one row per surviving pair, in nested-loop order
(`fast_range` outer, `slow_range` inner), each row keyed by its pair; on
`fast_range = [10, 20]`, `slow_range = [15, 25]` the surviving grid is
exactly `[(10,15), (10,25), (20,25)]`. -/
theorem C2_grid_enumeration (sim : Sim) (close_prices : List ℚ)
    (fast_range slow_range : List ℕ) (initial_cash fees : ℚ)
    (hsim : ∀ c en ex ca fe, ∃ m, sim c en ex ca fe = Except.ok m) :
    (survivingPairs fast_range slow_range = [] →
      optimizeGoldenCross sim close_prices fast_range slow_range
        initial_cash fees =
        Except.error "No valid parameter combinations found (Fast must be < Slow)") ∧
    (survivingPairs fast_range slow_range ≠ [] →
      ∃ rows, optimizeGoldenCross sim close_prices fast_range slow_range
          initial_cash fees = Except.ok rows ∧
        rows.length = (survivingPairs fast_range slow_range).length ∧
        List.Forall₂ (fun (p : ℕ × ℕ) (r : Row) =>
          r.fast_ma = (p.1 : ℤ) ∧ r.slow_ma = (p.2 : ℤ))
          (survivingPairs fast_range slow_range) rows) ∧
    survivingPairs [10, 20] [15, 25] = [(10, 15), (10, 25), (20, 25)] := by
  refine ⟨?_, ?_, by decide⟩
  · intro hempty
    unfold optimizeGoldenCross
    rw [gridCombos_eq_survivingPairs, hempty]
    rfl
  · intro hne
    have hforall : ∀ p ∈ gridCombos fast_range slow_range,
        ∃ r, rowFor sim close_prices initial_cash fees p = Except.ok r ∧
          (r.fast_ma = (p.1 : ℤ) ∧ r.slow_ma = (p.2 : ℤ)) := by
      intro p hp
      have hlt : p.1 < p.2 := by
        rw [gridCombos_eq_survivingPairs] at hp
        have := List.of_mem_filter hp
        simpa using this
      obtain ⟨m, hm⟩ := hsim close_prices
        (pairEntries p.1 p.2 close_prices) (pairExits p.1 p.2 close_prices)
        initial_cash fees
      refine ⟨builtRow p.1 p.2 m, ?_, rfl, rfl⟩
      rcases p with ⟨f, s⟩
      exact rowFor_eq sim close_prices initial_cash fees f s m hlt hm
    obtain ⟨out, hout, hF⟩ := mapM_ok_forall hforall
    have hneg : ¬((gridCombos fast_range slow_range).isEmpty = true) := by
      rw [gridCombos_eq_survivingPairs]
      simp [List.isEmpty_iff, hne]
    refine ⟨out, ?_, ?_, ?_⟩
    · unfold optimizeGoldenCross
      rw [if_neg hneg]
      exact hout
    · rw [← gridCombos_eq_survivingPairs]
      exact hF.length_eq.symm
    · rw [← gridCombos_eq_survivingPairs]
      exact hF

theorem C2_witness :
    survivingPairs [10, 20] [15, 25] = [(10, 15), (10, 25), (20, 25)] ∧
    (optimizeGoldenCross simTriv [] [10, 20] [15, 25] 10000 0).isOk =
      true := by
  constructor
  · exact (C2_grid_enumeration simTriv [] [10, 20] [15, 25] 10000 0
      (fun _ _ _ _ _ => ⟨_, rfl⟩)).2.2
  · obtain ⟨rows, hrows, -, -⟩ :=
      (C2_grid_enumeration simTriv [] [10, 20] [15, 25] 10000 0
        (fun _ _ _ _ _ => ⟨_, rfl⟩)).2.1 (by decide)
    rw [hrows]
    rfl

/-- C4 counterexample: the claim says `fast_window >= slow_window` raises
at the optimization entry point too, but `optimize_golden_cross` with
`fast_range = [5, 20]`, `slow_range = [10]` contains the invalid pair
(20, 10) and still succeeds, silently skipping it. -/
theorem C4_counterexample :
    (20 : ℕ) ≥ 10 ∧
    (optimizeGoldenCross simTriv [] [5, 20] [10] 10000 0).isOk = true := by
  constructor
  · decide
  · rfl

/-- C4 (amended): constructing a `GoldenCrossStrategy` fails exactly when
`fast_window >= slow_window`, before any computation, and an accepted
strategy keeps its windows unchanged; the single-run page refuses exactly
those configurations. The optimization entry point instead silently skips
invalid pairs and raises only when no pair survives. -/
theorem C4_construction_validation (fast_window slow_window : ℕ)
    (initial_cash fees : ℚ) :
    ((strategyInit fast_window slow_window initial_cash fees).isOk = false ↔
      fast_window ≥ slow_window) ∧
    (singleBacktestAllowed fast_window slow_window = false ↔
      fast_window ≥ slow_window) ∧
    (∀ strategy, strategyInit fast_window slow_window initial_cash fees =
        Except.ok strategy →
      strategy.fast_window = fast_window ∧
        strategy.slow_window = slow_window) ∧
    (∀ (sim : Sim) (close_prices : List ℚ),
      gridCombos [fast_window] [slow_window] = [] →
      optimizeGoldenCross sim close_prices [fast_window] [slow_window]
        initial_cash fees =
        Except.error "No valid parameter combinations found (Fast must be < Slow)") := by
  refine ⟨?_, ?_, ?_, ?_⟩
  · unfold strategyInit
    by_cases h : fast_window ≥ slow_window
    · rw [if_pos h]
      simp only [Except.isOk]
      exact ⟨fun _ => h, fun _ => rfl⟩
    · rw [if_neg h]
      simp only [Except.isOk]
      constructor
      · intro hcontra
        cases hcontra
      · intro hge
        exact absurd hge h
  · unfold singleBacktestAllowed
    rw [decide_eq_false_iff_not]
    omega
  · intro strategy hs
    unfold strategyInit at hs
    by_cases h : fast_window ≥ slow_window
    · rw [if_pos h] at hs
      cases hs
    · rw [if_neg h] at hs
      cases hs
      exact ⟨rfl, rfl⟩
  · intro sim close_prices hempty
    unfold optimizeGoldenCross
    rw [hempty]
    rfl

theorem C4_witness :
    (strategyInit 50 20 10000 0).isOk = false ∧
    (singleBacktestAllowed 50 20 = false) ∧
    (optimizeGoldenCross simTriv [] [50] [20] 10000 0).isOk = false := by
  refine ⟨(C4_construction_validation 50 20 10000 0).1.mpr (by decide),
    (C4_construction_validation 50 20 10000 0).2.1.mpr (by decide), ?_⟩
  rw [(C4_construction_validation 50 20 10000 0).2.2.2 simTriv []
    (by decide)]
  rfl

/-- C8: if the optimizer returns a results table at all, every per-row
computation succeeded — a failing row aborts the whole optimization and
no partial table is returned; likewise a single run propagates the
simulation's exception and returns nothing. -/
theorem C8_no_partial_results (sim : Sim) (close_prices : List ℚ)
    (fast_range slow_range : List ℕ) (initial_cash fees : ℚ)
    (strategy : Strategy) :
    (∀ rows, optimizeGoldenCross sim close_prices fast_range slow_range
        initial_cash fees = Except.ok rows →
      ∀ p ∈ gridCombos fast_range slow_range,
        (rowFor sim close_prices initial_cash fees p).isOk = true) ∧
    (∀ e, sim close_prices
        (pairEntries strategy.fast_window strategy.slow_window close_prices)
        (pairExits strategy.fast_window strategy.slow_window close_prices)
        strategy.initial_cash strategy.fees = Except.error e →
      runBacktest sim strategy close_prices = Except.error e) := by
  constructor
  · intro rows hok p hp
    unfold optimizeGoldenCross at hok
    by_cases hc : (gridCombos fast_range slow_range).isEmpty = true
    · rw [if_pos hc] at hok
      cases hok
    · rw [if_neg hc] at hok
      exact mapM_ok_mem hok p hp
  · intro e he
    unfold runBacktest
    rw [he]
    rfl

theorem C8_witness :
    (rowFor simTriv [] 10000 0 (1, 2)).isOk = true ∧
    runBacktest simFail ⟨1, 2, 10000, 0⟩ [] = Except.error "boom" := by
  constructor
  · exact (C8_no_partial_results simTriv [] [1] [2] 10000 0
      ⟨1, 2, 10000, 0⟩).1 [⟨1, 2, none, none, none, none, none, some 0, 0⟩]
      rfl (1, 2) (by decide)
  · exact (C8_no_partial_results simFail [] [1] [2] 10000 0
      ⟨1, 2, 10000, 0⟩).2 "boom" rfl

set_option maxRecDepth 100000 in
/-- C9: the exported delimited text is one header line carrying the nine
columns in order Fast, Slow, TotalReturnPct, SharpeRatio, SortinoRatio,
CalmarRatio, MaxDrawdownPct, WinRatePct, NumTrades, followed by one line
per table row (plus the trailing newline's empty fragment), and parsing
the export returns exactly the original rows — a lossless round trip, in
particular faithful to at least two decimal places. -/
theorem C9_csv_round_trip (rows : List Row) :
    splitOnChar '\n' (exportCsv rows) =
      (csvHeader :: rows.map renderRow) ++ [[]] ∧
    (splitOnChar '\n' (exportCsv rows)).length = rows.length + 2 ∧
    splitOnChar ',' csvHeader =
      ["Fast MA".toList, "Slow MA".toList, "Total Return (%)".toList,
        "Sharpe Ratio".toList, "Sortino Ratio".toList,
        "Calmar Ratio".toList, "Max Drawdown (%)".toList,
        "Win Rate (%)".toList, "Num Trades".toList] ∧
    parseCsv (exportCsv rows) = some rows := by
  refine ⟨splitOnChar_exportCsv rows, ?_, by decide, parseCsv_exportCsv rows⟩
  rw [splitOnChar_exportCsv]
  simp

/-- C10: formatting `f"Fast={f}, Slow={s}"` and re-parsing with
`split(",")[0].split("=")[1]` and `split("=")[2]` recovers exactly
`(f, s)` for all integers, and consequently each optimization row's
Fast MA / Slow MA fields equal the window pair whose signals produced
that row. -/
theorem C10_label_round_trip :
    (∀ f s : ℤ, parseLabelFast (mkLabel f s) = some f ∧
      parseLabelSlow (mkLabel f s) = some s) ∧
    (∀ (sim : Sim) (close_prices : List ℚ) (initial_cash fees : ℚ)
      (f s : ℕ) (m : Metrics), f < s →
      sim close_prices (pairEntries f s close_prices)
        (pairExits f s close_prices) initial_cash fees = Except.ok m →
      ∃ r, rowFor sim close_prices initial_cash fees (f, s) =
        Except.ok r ∧ r.fast_ma = (f : ℤ) ∧ r.slow_ma = (s : ℤ)) := by
  constructor
  · intro f s
    exact ⟨parseLabelFast_mkLabel f s, parseLabelSlow_mkLabel f s⟩
  · intro sim close_prices initial_cash fees f s m hfs hm
    exact ⟨builtRow f s m,
      rowFor_eq sim close_prices initial_cash fees f s m hfs hm, rfl, rfl⟩

theorem C10_witness :
    parseLabelFast (mkLabel 12 26) = some 12 ∧
    parseLabelSlow (mkLabel 12 26) = some 26 ∧
    (rowFor simTriv [] 10000 0 (12, 26)).isOk = true := by
  refine ⟨(C10_label_round_trip.1 12 26).1,
    (C10_label_round_trip.1 12 26).2, ?_⟩
  obtain ⟨r, hr, -, -⟩ := C10_label_round_trip.2 simTriv [] 10000 0 12 26
    ⟨none, none, none, none, none, none, 0⟩ (by decide) rfl
  rw [hr]
  rfl

end Rooms
